import Mathlib

/-!
# Verification of the ECG compressive-sensing codec (`skecg.cs.codec_a`)

This file gives a shallow embedding of the encode/decode pipeline of
`src/skecg/cs/codec_a.py` and proves the spec's claims about it.

Conventions of the embedding:
* 1-D integer arrays become `List Int`; 2-D arrays (matrices whose columns are
  windows) become `List (List Int)`, one inner list per column.
* numpy's arithmetic right shift `>>` on signed integers is floor division by a
  power of two; we use `Int.ediv`, which agrees with floor division for
  positive divisors.
* The external libraries used by the codec (`constriction`'s stack ANS coder,
  `cr.nimble.vec_to_windows`, `cr.sparse.dict.sparse_binary_mtx`, the BSBL
  solver) are not part of this repository; where their behaviour matters it is
  modelled from the spec, and each such definition says so in its doc string.
-/

/-- Clipping width, bound in `build_codec` (line 38 of `codec_a.py`). -/
def n_sigma : Int := 3

/-- Quantization (line 55): arithmetic right shift of a measurement by
`q_bits`, i.e. floor division by `2 ^ q_bits`. -/
def quantize (q_bits : Nat) (x : Int) : Int := Int.ediv x (2 ^ q_bits)

/-- Inverse quantization (line 102): left shift by `q_bits`, i.e.
multiplication by `2 ^ q_bits`. -/
def dequantize (q_bits : Nat) (x : Int) : Int := x * 2 ^ q_bits

/-- `np.clip(x, lo, hi)` (line 66): clamp `x` into `[lo, hi]`. -/
def clip (lo hi x : Int) : Int := min (max x lo) hi

/-- The quantization step applied to the whole measurement stream
(lines 54-55): the shift is applied only when `q_bits > 0`. -/
def quantizeStream (q_bits : Nat) (ys : List Int) : List Int :=
  if 0 < q_bits then ys.map (quantize q_bits) else ys

/-- The inverse-quantization step applied to the whole decoded stream
(lines 101-102). -/
def dequantizeStream (q_bits : Nat) (ys : List Int) : List Int :=
  if 0 < q_bits then ys.map (dequantize q_bits) else ys

/-- Alphabet lower bound computed by the encoder (line 64):
`a_min = mean_val - n_sigma * std_val`. -/
def enc_a_min (mean_val std_val : Int) : Int := mean_val - n_sigma * std_val

/-- Alphabet upper bound computed by the encoder (line 65):
`a_max = mean_val + n_sigma * std_val`. -/
def enc_a_max (mean_val std_val : Int) : Int := mean_val + n_sigma * std_val

/-- Alphabet lower bound rebuilt by the decoder (line 90). -/
def dec_a_min (mean_val std_val : Int) : Int := mean_val - n_sigma * std_val

/-- Alphabet upper bound rebuilt by the decoder (line 91). -/
def dec_a_max (mean_val std_val : Int) : Int := mean_val + n_sigma * std_val

/-- Nearest-integer round of the exact rational `p / L`, ties to even —
`int(np.round(...))` applied to the mean `p / L` of an integer stream of
length `L` (line 60), with the float-64 mean idealized as the exact rational
value.  `f` is the floor of `p / L` and `r` the remainder, so `p / L` rounds
down exactly when `2 * r < L`, up when `2 * r > L`, and to the even one of
`f`, `f + 1` at a tie. -/
def roundHalfEvenDiv (p : Int) (L : Nat) : Int :=
  let f := Int.ediv p L
  let r := Int.emod p L
  if 2 * r < (L : Int) then f
  else if (L : Int) < 2 * r then f + 1
  else if Int.emod f 2 = 0 then f else f + 1

/-- Largest `k ≤ bound` with `k * k ≤ n` (helper for `isqrt`): searches
downward from the bound by structural recursion. -/
def sqrtAux (n : Nat) : Nat → Nat
  | 0 => 0
  | k + 1 => if (k + 1) * (k + 1) ≤ n then k + 1 else sqrtAux n k

/-- Integer square root `⌊√n⌋`, by structural recursion so that concrete
instances reduce inside the kernel. -/
def isqrt (n : Nat) : Nat := sqrtAux n n

/-- Nearest-integer round of `Real.sqrt (N / D)` for `0 ≤ N` and `0 < D` —
`int(np.round(...))` applied to the standard deviation (line 61), where
`N / D` is the exact population variance of the stream.  `t` is the integer
square root of `⌊N / D⌋`, hence the floor of the true square root; the root
rounds to `t` exactly when `N / D < (t + 1/2)^2`, i.e. `4 N < D (2 t + 1)^2`,
and to `t + 1` when `4 N > D (2 t + 1)^2`.  At an exact tie (the root is
exactly `t + 1/2`, a value float 64 represents exactly) `np.round` rounds
half to even, picking the even one of `t`, `t + 1`. -/
def roundSqrtDiv (N : Int) (D : Nat) : Int :=
  let t := isqrt (Int.ediv N D).toNat
  if 4 * N < (D : Int) * (2 * t + 1) ^ 2 then (t : Int)
  else if (D : Int) * (2 * t + 1) ^ 2 < 4 * N then (t : Int) + 1
  else if t % 2 = 0 then (t : Int) else (t : Int) + 1

/-- `int(np.round(Y2.mean()))` (line 60): nearest-integer round of the mean of
the stream, the float-64 mean idealized as the exact rational `sum / length`. -/
def streamMeanVal (ys : List Int) : Int :=
  roundHalfEvenDiv ys.sum ys.length

/-- `int(np.round(Y2.std()))` (line 61): nearest-integer round of the
population standard deviation of the stream.  The exact variance of a stream
of length `L` with sum `s` is `(L * Σ y² - s²) / L²`; its square root is
rounded by `roundSqrtDiv`. -/
def streamStdVal (ys : List Int) : Int :=
  roundSqrtDiv ((ys.length : Int) * (ys.map (fun y => y * y)).sum - ys.sum * ys.sum)
    (ys.length ^ 2)

/-- Integer dot product of two vectors (a row of `Phi` against a window). -/
def dotInt (row col : List Int) : Int := (List.zipWith (fun a b => a * b) row col).sum

/-- `Phi @ x` for one window `x`: one dot product per row of `Phi` (line 49,
restricted to a single column of `X`). -/
def matVec (Phi : List (List Int)) (x : List Int) : List Int :=
  Phi.map (fun row => dotInt row x)

/-- Split a list into `k` consecutive chunks of length `n` (column-major
reshape into an `n × k` array, one inner list per column). -/
def chunks (n : Nat) : Nat → List Int → List (List Int)
  | 0, _ => []
  | Nat.succ k, xs => xs.take n :: chunks n k (xs.drop n)

/-- Modelled from the spec: `cr.nimble.vec_to_windows` is an external library
function (not in this repository).  Per spec §4.2 it reshapes a 1-D signal
into length-`n` columns in column-major order; per §9 its behaviour on a
length that is not a multiple of `n` is unspecified (the underlying reshape
fails), so callers of this model guard divisibility themselves. -/
def vec_to_windows (n : Nat) (v : List Int) : List (List Int) :=
  chunks n (v.length / n) v

/-- Encoder-side windowing (line 44): reshape the signal into length-`n`
columns and subtract the DC bias 1024 from every sample. -/
def to_windows (n : Nat) (sig : List Int) : List (List Int) :=
  (vec_to_windows n sig).map (List.map (fun x => x - 1024))

/-- Decoder-side reassembly (line 122): flatten the columns in column-major
order and add the DC bias 1024 back. -/
def from_windows (cols : List (List Int)) : List Int :=
  cols.flatten.map (fun x => x + 1024)

/-- The entropy model `constriction.stream.model.QuantizedGaussian(a_min, a_max)`:
only the alphabet bounds are retained, since by spec §4.3 the per-symbol
Gaussian parameters affect code length but not losslessness within the
alphabet. -/
structure QuantizedGaussian where
  a_min : Int
  a_max : Int
deriving DecidableEq

/-- Modelled from the spec: `constriction.stream.stack.AnsCoder.encode_reverse`
is an external library routine (not in this repository).  Per spec §4.4 the
coder is a stack (LIFO) whose encode pushes the symbols in *reverse* input
order; symbols outside the model's alphabet `[a_min, a_max]` are undefined for
the model (`none` here).  The arithmetic-coding state is abstracted to the
stack of pushed symbols, which is faithful because the spec guarantees an
exact round trip for in-alphabet symbols. -/
def encode_reverse (model : QuantizedGaussian) (syms : List Int) (stack : List Int) :
    Option (List Int) :=
  if _h : ∀ s ∈ syms, model.a_min ≤ s ∧ s ≤ model.a_max then
    some (syms.reverse.foldl (fun acc s => s :: acc) stack)
  else none

/-- Modelled from the spec: `AnsCoder.decode` pops `count` symbols in stack
order (spec §4.4); decoding more symbols than the stack holds is undefined
(`none` here, the deterministic failure §7 asks for).  Faithful only when the
model matches the one used to encode, which is the caller contract. -/
def ansDecode (_model : QuantizedGaussian) (count : Nat) (stack : List Int) :
    Option (List Int) :=
  if count ≤ stack.length then some (stack.take count) else none

/-- The wire-adjacent record emitted by the encoder (lines 18-25).
`measurements` stores the raw pre-quantization measurement stream (the source
keeps the 2-D array `Y_np`; it is held flattened here, column-major). -/
structure EncodedData where
  n_samples : Nat
  n_windows : Nat
  n_measurements : Nat
  mean_val : Int
  std_val : Int
  compressed : List Int
  measurements : List Int
deriving DecidableEq

/-- The decoder's result (lines 27-30) minus the wall-clock field `r_times`,
which is real time and outside the embedding.  `α` is the scalar type of the
solver's estimates (real vectors in the source). -/
structure DecodedData (α : Type) where
  x : List α
  r_iters : List Nat
deriving DecidableEq

/-- The raw integer measurement stream of the encoder before quantization
(lines 44-52): window the signal, apply `Phi` to every window, flatten
column-major. -/
def rawMeasurementStream (n : Nat) (Phi : List (List Int)) (sig : List Int) : List Int :=
  ((to_windows n sig).map (matVec Phi)).flatten

/-- `ecg_encoder` (lines 43-81).  Returns `none` when the reshape of line 44
is undefined (`n = 0` or a length that is not a multiple of `n`, spec §9) or
when the measurement stream is empty (`np.max` of line 58 raises).
`min_val`, `max_val` and `g_max` of lines 58-63 feed only `print` calls and
are omitted. -/
def ecg_encoder (n q_bits : Nat) (Phi : List (List Int)) (ecg : List Int) :
    Option EncodedData :=
  if n = 0 ∨ ecg.length % n ≠ 0 then none else
  let X := to_windows n ecg
  let n_windows := X.length
  let n_samples := n * n_windows
  let Y_np := (X.map (matVec Phi)).flatten
  let Y2 := quantizeStream q_bits Y_np
  if Y2.length = 0 then none else
  let n_measurements := Y2.length
  let mean_val := streamMeanVal Y2
  let std_val := streamStdVal Y2
  let aMin := enc_a_min mean_val std_val
  let aMax := enc_a_max mean_val std_val
  let Y2c := Y2.map (clip aMin aMax)
  let model := QuantizedGaussian.mk aMin aMax
  match encode_reverse model Y2c [] with
  | none => none
  | some compressed =>
      some ⟨n_samples, n_windows, n_measurements, mean_val, std_val, compressed, Y_np⟩

/-- `ecg_decoder` (lines 84-123).  The BSBL solver of line 114 is an external
black box (spec §4.7); it is abstracted by the parameter `solve`, a
deterministic function from a window's measurement vector to an estimate and
an iteration count (the dense matrix, block size and options of the call are
fixed per session and absorbed into `solve`).  Returns `none` when the
entropy decode is undefined. -/
def ecg_decoder {α : Type} [Add α] [OfNat α 1024] (m q_bits : Nat)
    (solve : List Int → List α × Nat) (coded_ecg : EncodedData) :
    Option (DecodedData α) :=
  let _n_samples := coded_ecg.n_samples
  let n_windows := coded_ecg.n_windows
  let n_measurements := coded_ecg.n_measurements
  let mean_val := coded_ecg.mean_val
  let std_val := coded_ecg.std_val
  let aMin := dec_a_min mean_val std_val
  let aMax := dec_a_max mean_val std_val
  let model := QuantizedGaussian.mk aMin aMax
  match ansDecode model n_measurements coded_ecg.compressed with
  | none => none
  | some decoded =>
      let reconstructed := dequantizeStream q_bits decoded
      let RY := vec_to_windows m reconstructed
      let sols := (List.range n_windows).map (fun i => solve (RY.getD i []))
      let x := (sols.map Prod.fst).flatten.map (fun v => v + 1024)
      some ⟨x, sols.map Prod.snd⟩

/-- The error raised when the sensing matrix cannot be built (spec §4.1). -/
inductive ConfigurationError where
  | dGreaterThanM : ConfigurationError
deriving DecidableEq

/-- Modelled from the spec: `cr.sparse.dict.sparse_binary_mtx` is an external
library routine (not in this repository).  Per spec §4.1 it deterministically
builds an `m × n` matrix with exactly `d` entries equal to 1 per column,
positions chosen by a seeded selection of `d` distinct rows among `m`, and
fails with a `ConfigurationError` when `d > m`.  The seeded positions are
irrelevant to every claim, so the model places the ones in the first `d` rows
of each column. -/
def sparse_binary_mtx (m n d : Nat) : Except ConfigurationError (List (List Int)) :=
  if m < d then Except.error ConfigurationError.dGreaterThanM
  else Except.ok ((List.range m).map (fun i =>
    (List.range n).map (fun _ => if i < d then (1 : Int) else 0)))

/-- `build_codec` (lines 36-124): build the sensing matrix, then return the
encoder/decoder pair closed over it.  The decoder component takes the abstract
solver as its argument; `block_size` is consumed by the solver call and is
absorbed into that argument. -/
def build_codec (n m d _block_size q_bits : Nat) :
    Except ConfigurationError
      ((List Int → Option EncodedData) ×
        ((List Int → List Int × Nat) → EncodedData → Option (DecodedData Int))) :=
  match sparse_binary_mtx m n d with
  | Except.error e => Except.error e
  | Except.ok Phi =>
      Except.ok (ecg_encoder n q_bits Phi, fun solve => ecg_decoder m q_bits solve)

/-- The encoder's measurement-coding path (lines 54-73), as a function of the
alphabet bounds: quantize the measurement stream, clip every entry into the
alphabet, then entropy-encode onto an empty stack. -/
def measurementEncodePath (q_bits : Nat) (aMin aMax : Int) (ys : List Int) :
    Option (List Int) :=
  encode_reverse ⟨aMin, aMax⟩ ((quantizeStream q_bits ys).map (clip aMin aMax)) []

/-- The decoder's measurement path (lines 97-102): entropy-decode `count`
symbols from the stack, then inverse-quantize them. -/
def measurementDecodePath (q_bits : Nat) (aMin aMax : Int) (count : Nat)
    (stack : List Int) : Option (List Int) :=
  (ansDecode ⟨aMin, aMax⟩ count stack).map (dequantizeStream q_bits)

/-! ## Helper lemmas -/

lemma foldl_cons_reverse (syms stack : List Int) :
    syms.reverse.foldl (fun acc s => s :: acc) stack = syms ++ stack := by
  induction syms with
  | nil => rfl
  | cons s rest ih => simp only [List.reverse_cons, List.foldl_append, List.foldl_cons,
      List.foldl_nil, ih, List.cons_append]

lemma encode_reverse_in_band (model : QuantizedGaussian) (syms stack : List Int)
    (h : ∀ s ∈ syms, model.a_min ≤ s ∧ s ≤ model.a_max) :
    encode_reverse model syms stack = some (syms ++ stack) := by
  rw [encode_reverse, dif_pos h, foldl_cons_reverse]

lemma ansDecode_exact (model : QuantizedGaussian) (syms : List Int) :
    ansDecode model syms.length syms = some syms := by
  rw [ansDecode, if_pos (le_refl _), List.take_length]

lemma quantize_zero (y : Int) : quantize 0 y = y := by
  rw [quantize, pow_zero]
  exact Int.ediv_one y

lemma dequantize_zero (y : Int) : dequantize 0 y = y := by
  simp [dequantize]

lemma quantizeStream_eq_map (q_bits : Nat) (ys : List Int) :
    quantizeStream q_bits ys = ys.map (quantize q_bits) := by
  rcases Nat.eq_zero_or_pos q_bits with h | h
  · subst h
    rw [quantizeStream, if_neg (lt_irrefl 0)]
    induction ys with
    | nil => rfl
    | cons y ys ih => rw [List.map_cons, quantize_zero, ← ih]
  · rw [quantizeStream, if_pos h]

lemma dequantizeStream_eq_map (q_bits : Nat) (ys : List Int) :
    dequantizeStream q_bits ys = ys.map (dequantize q_bits) := by
  rcases Nat.eq_zero_or_pos q_bits with h | h
  · subst h
    rw [dequantizeStream, if_neg (lt_irrefl 0)]
    induction ys with
    | nil => rfl
    | cons y ys ih => rw [List.map_cons, dequantize_zero, ← ih]
  · rw [dequantizeStream, if_pos h]

lemma clip_of_in_band (lo hi z : Int) (h1 : lo ≤ z) (h2 : z ≤ hi) :
    clip lo hi z = z := by
  unfold clip
  omega

/-! ## Claims -/

/-- C1: for every integer sequence whose values all lie in `[a_min, a_max]`
for some `(mean_val, std_val)`, encoding with the stack ANS coder under the
quantized-Gaussian model built from `(mean_val, std_val)` (pushing in reverse
input order) and then decoding the same number of symbols with the same model
returns exactly the original sequence in original order. -/
theorem entropy_roundtrip (mean_val std_val : Int) (seq : List Int)
    (h : ∀ s ∈ seq, enc_a_min mean_val std_val ≤ s ∧ s ≤ enc_a_max mean_val std_val) :
    (encode_reverse ⟨enc_a_min mean_val std_val, enc_a_max mean_val std_val⟩ seq []).bind
        (ansDecode ⟨enc_a_min mean_val std_val, enc_a_max mean_val std_val⟩ seq.length)
      = some seq := by
  rw [encode_reverse_in_band _ _ _ h, List.append_nil, Option.some_bind, ansDecode_exact]

theorem entropy_roundtrip_witness :
    (∀ s ∈ ([1, -2, 3] : List Int), enc_a_min 0 1 ≤ s ∧ s ≤ enc_a_max 0 1) ∧
    (encode_reverse ⟨enc_a_min 0 1, enc_a_max 0 1⟩ [1, -2, 3] []).bind
        (ansDecode ⟨enc_a_min 0 1, enc_a_max 0 1⟩ ([1, -2, 3] : List Int).length)
      = some [1, -2, 3] :=
  ⟨by decide, entropy_roundtrip 0 1 [1, -2, 3] (by decide)⟩

/-- C2: encoder and decoder compute identical entropy-model bounds from the
same transmitted statistics — for every `(mean_val, std_val)` both sides use
`a_min = mean_val - 3 * std_val` and `a_max = mean_val + 3 * std_val`, with
`n_sigma` fixed at 3, so the bounds the decoder rebuilds from a record equal
the bounds the encoder used to produce it. -/
theorem model_bounds_agree : ∀ mean_val std_val : Int,
    dec_a_min mean_val std_val = enc_a_min mean_val std_val ∧
    dec_a_max mean_val std_val = enc_a_max mean_val std_val ∧
    n_sigma = 3 :=
  fun _ _ => ⟨rfl, rfl, rfl⟩

/-- C4: the clip step never fails and clamps at the band edges: with the
encoder's bounds built from any `(mean_val, std_val)` with `0 ≤ std_val`, a
value `a_max + 1` is clipped to `a_max`, a value `a_min - 1` to `a_min`, and
every out-of-band value to the nearest bound. -/
theorem clip_clamps (mean_val std_val x : Int) (hstd : 0 ≤ std_val) :
    clip (enc_a_min mean_val std_val) (enc_a_max mean_val std_val)
        (enc_a_max mean_val std_val + 1) = enc_a_max mean_val std_val ∧
    clip (enc_a_min mean_val std_val) (enc_a_max mean_val std_val)
        (enc_a_min mean_val std_val - 1) = enc_a_min mean_val std_val ∧
    (enc_a_max mean_val std_val < x →
      clip (enc_a_min mean_val std_val) (enc_a_max mean_val std_val) x
        = enc_a_max mean_val std_val) ∧
    (x < enc_a_min mean_val std_val →
      clip (enc_a_min mean_val std_val) (enc_a_max mean_val std_val) x
        = enc_a_min mean_val std_val) := by
  simp only [clip, enc_a_min, enc_a_max, n_sigma]
  omega

theorem clip_clamps_witness :
    (0 : Int) ≤ 1 ∧
    (clip (enc_a_min 0 1) (enc_a_max 0 1) (enc_a_max 0 1 + 1) = enc_a_max 0 1 ∧
     clip (enc_a_min 0 1) (enc_a_max 0 1) (enc_a_min 0 1 - 1) = enc_a_min 0 1 ∧
     (enc_a_max 0 1 < 5 → clip (enc_a_min 0 1) (enc_a_max 0 1) 5 = enc_a_max 0 1) ∧
     ((5 : Int) < enc_a_min 0 1 → clip (enc_a_min 0 1) (enc_a_max 0 1) 5 = enc_a_min 0 1)) :=
  ⟨by decide, clip_clamps 0 1 5 (by decide)⟩

/-- C8: invalid construction parameters fail fast — whenever `d > m`, building
the codec fails with a `ConfigurationError` at matrix-build time, before any
encoder or decoder is returned. -/
theorem build_codec_rejects_d_gt_m (n m d block_size q_bits : Nat) (h : m < d) :
    build_codec n m d block_size q_bits
      = Except.error ConfigurationError.dGreaterThanM := by
  unfold build_codec sparse_binary_mtx
  rw [if_pos h]

theorem build_codec_rejects_d_gt_m_witness :
    2 < 3 ∧
    build_codec 4 2 3 1 0 = Except.error ConfigurationError.dGreaterThanM :=
  ⟨by decide, build_codec_rejects_d_gt_m 4 2 3 1 0 (by decide)⟩

/-- C10: the decoder's deterministic outputs depend only on the `n_windows`,
`n_measurements`, `mean_val`, `std_val` and `compressed` fields — two records
agreeing on those five fields but possibly differing in `n_samples` or in the
retained `measurements` array decode to identical results (`n_samples` is read
but never used, `measurements` is never read). -/
theorem decoder_field_independence {α : Type} [Add α] [OfNat α 1024]
    (m q_bits : Nat) (solve : List Int → List α × Nat) (r1 r2 : EncodedData)
    (hw : r1.n_windows = r2.n_windows)
    (hm : r1.n_measurements = r2.n_measurements)
    (hmean : r1.mean_val = r2.mean_val)
    (hstd : r1.std_val = r2.std_val)
    (hc : r1.compressed = r2.compressed) :
    ecg_decoder m q_bits solve r1 = ecg_decoder m q_bits solve r2 := by
  simp only [ecg_decoder, hw, hm, hmean, hstd, hc]

theorem decoder_field_independence_witness :
    (⟨10, 1, 2, 0, 1, [1, 2], [9]⟩ : EncodedData).n_windows
        = (⟨99, 1, 2, 0, 1, [1, 2], []⟩ : EncodedData).n_windows ∧
    (⟨10, 1, 2, 0, 1, [1, 2], [9]⟩ : EncodedData).n_measurements
        = (⟨99, 1, 2, 0, 1, [1, 2], []⟩ : EncodedData).n_measurements ∧
    (⟨10, 1, 2, 0, 1, [1, 2], [9]⟩ : EncodedData).mean_val
        = (⟨99, 1, 2, 0, 1, [1, 2], []⟩ : EncodedData).mean_val ∧
    (⟨10, 1, 2, 0, 1, [1, 2], [9]⟩ : EncodedData).std_val
        = (⟨99, 1, 2, 0, 1, [1, 2], []⟩ : EncodedData).std_val ∧
    (⟨10, 1, 2, 0, 1, [1, 2], [9]⟩ : EncodedData).compressed
        = (⟨99, 1, 2, 0, 1, [1, 2], []⟩ : EncodedData).compressed ∧
    ecg_decoder (α := Int) 1 0 (fun y => (y, 3)) ⟨10, 1, 2, 0, 1, [1, 2], [9]⟩
      = ecg_decoder (α := Int) 1 0 (fun y => (y, 3)) ⟨99, 1, 2, 0, 1, [1, 2], []⟩ :=
  ⟨rfl, rfl, rfl, rfl, rfl,
    decoder_field_independence 1 0 (fun y => (y, 3))
      ⟨10, 1, 2, 0, 1, [1, 2], [9]⟩ ⟨99, 1, 2, 0, 1, [1, 2], []⟩ rfl rfl rfl rfl rfl⟩

/-- C3: quantization/dequantization — when every quantized measurement lies in
the clip band, the measurement encode-then-decode path returns the stream of
dequantized quantized values; for `q_bits = 0` that reproduces each
measurement exactly, and for `q_bits = k > 0` each decoded measurement equals
`(original >> k) << k` with reconstruction error in `[0, 2^k)`, in particular
strictly less than `2^k`. -/
theorem quantization_roundtrip (q_bits : Nat) (aMin aMax : Int) (ys : List Int)
    (y : Int)
    (hband : ∀ z ∈ ys, aMin ≤ quantize q_bits z ∧ quantize q_bits z ≤ aMax) :
    (measurementEncodePath q_bits aMin aMax ys).bind
        (measurementDecodePath q_bits aMin aMax ys.length)
      = some (ys.map (fun z => dequantize q_bits (quantize q_bits z))) ∧
    (q_bits = 0 → dequantize 0 (quantize 0 y) = y) ∧
    (0 < q_bits →
      dequantize q_bits (quantize q_bits y) = Int.ediv y (2 ^ q_bits) * 2 ^ q_bits ∧
      0 ≤ y - dequantize q_bits (quantize q_bits y) ∧
      y - dequantize q_bits (quantize q_bits y) < 2 ^ q_bits) := by
  have hpos : (0 : Int) < 2 ^ q_bits := by positivity
  have hdm : 2 ^ q_bits * Int.ediv y (2 ^ q_bits) + Int.emod y (2 ^ q_bits) = y :=
    Int.ediv_add_emod y (2 ^ q_bits)
  have hm0 : 0 ≤ Int.emod y (2 ^ q_bits) := Int.emod_nonneg y (ne_of_gt hpos)
  have hmlt : Int.emod y (2 ^ q_bits) < 2 ^ q_bits := Int.emod_lt_of_pos y hpos
  refine ⟨?_, fun _ => by rw [quantize_zero, dequantize_zero], fun _ => ⟨rfl, ?_, ?_⟩⟩
  · rw [measurementEncodePath, quantizeStream_eq_map, List.map_map]
    have hcl : ys.map (clip aMin aMax ∘ quantize q_bits) = ys.map (quantize q_bits) :=
      List.map_congr_left fun z hz =>
        clip_of_in_band _ _ _ (hband z hz).1 (hband z hz).2
    rw [hcl]
    have hb : ∀ s ∈ ys.map (quantize q_bits),
        (QuantizedGaussian.mk aMin aMax).a_min ≤ s ∧
          s ≤ (QuantizedGaussian.mk aMin aMax).a_max := by
      intro s hs
      rcases List.mem_map.mp hs with ⟨z, hz, rfl⟩
      exact hband z hz
    rw [encode_reverse_in_band _ _ _ hb, List.append_nil, Option.some_bind,
        measurementDecodePath, ← List.length_map ys (quantize q_bits),
        ansDecode_exact, Option.map_some', dequantizeStream_eq_map, List.map_map]
    rfl
  · show 0 ≤ y - quantize q_bits y * 2 ^ q_bits
    rw [quantize]
    linarith
  · show y - quantize q_bits y * 2 ^ q_bits < 2 ^ q_bits
    rw [quantize]
    linarith

theorem quantization_roundtrip_witness :
    (∀ z ∈ ([5, -3] : List Int), (-10 : Int) ≤ quantize 1 z ∧ quantize 1 z ≤ 10) ∧
    ((measurementEncodePath 1 (-10) 10 [5, -3]).bind
        (measurementDecodePath 1 (-10) 10 ([5, -3] : List Int).length)
      = some (([5, -3] : List Int).map (fun z => dequantize 1 (quantize 1 z))) ∧
    ((1 : Nat) = 0 → dequantize 0 (quantize 0 5) = 5) ∧
    (0 < (1 : Nat) →
      dequantize 1 (quantize 1 5) = Int.ediv 5 (2 ^ 1) * 2 ^ 1 ∧
      0 ≤ (5 : Int) - dequantize 1 (quantize 1 5) ∧
      (5 : Int) - dequantize 1 (quantize 1 5) < 2 ^ 1)) :=
  ⟨by decide, quantization_roundtrip 1 (-10) 10 [5, -3] 5 (by decide)⟩

lemma length_chunks (n : Nat) : ∀ (k : Nat) (xs : List Int), (chunks n k xs).length = k
  | 0, _ => rfl
  | Nat.succ k, xs => by rw [chunks, List.length_cons, length_chunks n k]

lemma flatten_chunks (n : Nat) : ∀ (k : Nat) (xs : List Int), xs.length = k * n →
    (chunks n k xs).flatten = xs := by
  intro k
  induction k with
  | zero =>
      intro xs h
      rw [Nat.zero_mul] at h
      rw [chunks, List.flatten_nil, (List.eq_nil_of_length_eq_zero h).symm]
  | succ k ih =>
      intro xs h
      rw [chunks, List.flatten_cons,
        ih (xs.drop n) (by rw [List.length_drop, h, Nat.succ_mul]; omega),
        List.take_append_drop]

/-- C7: windowing round trip with DC restoration — for every integer signal
whose length is an exact multiple of the window length `n`, reshaping it into
length-`n` columns (column-major) after subtracting the DC bias 1024 and then
flattening the columns back (column-major) and adding 1024 reproduces the
original signal exactly, including its length. -/
theorem windowing_roundtrip (n k : Nat) (sig : List Int) (hn : 0 < n)
    (hlen : sig.length = k * n) :
    from_windows (to_windows n sig) = sig := by
  rw [to_windows, from_windows, vec_to_windows, ← List.map_flatten, hlen,
      Nat.mul_div_cancel k hn, flatten_chunks n k sig hlen, List.map_map]
  have h2 : sig.map ((fun x => x + 1024) ∘ fun x => x - 1024) = sig.map id :=
    List.map_congr_left fun x _ => by simp
  rw [h2, List.map_id]

theorem windowing_roundtrip_witness :
    0 < 2 ∧ ([5, 6] : List Int).length = 1 * 2 ∧
    from_windows (to_windows 2 [5, 6]) = [5, 6] :=
  ⟨by decide, by decide, windowing_roundtrip 2 1 [5, 6] (by decide) (by decide)⟩

lemma length_flatten_map_matVec (Phi : List (List Int)) (X : List (List Int)) :
    ((X.map (matVec Phi)).flatten).length = Phi.length * X.length := by
  induction X with
  | nil => simp
  | cons c X ih =>
      rw [List.map_cons, List.flatten_cons, List.length_append, ih, matVec,
        List.length_map, List.length_cons]
      ring

/-- Destructuring of a successful encoder run: the guard facts and the value
of every record field used by the claims. -/
lemma ecg_encoder_some_spec (n q_bits : Nat) (Phi : List (List Int)) (sig : List Int)
    (rec : EncodedData) (h : ecg_encoder n q_bits Phi sig = some rec) :
    n ≠ 0 ∧ sig.length % n = 0 ∧
    rec.n_samples = n * (to_windows n sig).length ∧
    rec.n_windows = (to_windows n sig).length ∧
    rec.n_measurements
      = (quantizeStream q_bits (((to_windows n sig).map (matVec Phi)).flatten)).length ∧
    rec.mean_val
      = streamMeanVal (quantizeStream q_bits (((to_windows n sig).map (matVec Phi)).flatten)) ∧
    rec.std_val
      = streamStdVal (quantizeStream q_bits (((to_windows n sig).map (matVec Phi)).flatten)) := by
  simp only [ecg_encoder] at h
  split at h
  · simp at h
  · rename_i hg
    push_neg at hg
    split at h
    · simp at h
    · split at h
      · simp at h
      · injection h with h2
        subst h2
        exact ⟨hg.1, hg.2, rfl, rfl, rfl, rfl, rfl⟩

/-- C5: for every successfully encoded signal, the emitted record satisfies
`n_measurements = m * n_windows`, where `m` is the number of rows of the
sensing matrix (the configured measurement count). -/
theorem n_measurements_invariant (n q_bits : Nat) (Phi : List (List Int))
    (sig : List Int) (rec : EncodedData)
    (h : ecg_encoder n q_bits Phi sig = some rec) :
    rec.n_measurements = Phi.length * rec.n_windows := by
  obtain ⟨-, -, -, hw, hm, -, -⟩ := ecg_encoder_some_spec n q_bits Phi sig rec h
  rw [hm, hw, quantizeStream_eq_map, List.length_map, length_flatten_map_matVec]

theorem n_measurements_invariant_witness :
    ecg_encoder 2 0 [[1, 1]] [1024, 1025, 1024, 1023]
        = some ⟨4, 2, 2, 0, 1, [1, -1], [1, -1]⟩ ∧
    (⟨4, 2, 2, 0, 1, [1, -1], [1, -1]⟩ : EncodedData).n_measurements
      = ([[1, 1]] : List (List Int)).length
          * (⟨4, 2, 2, 0, 1, [1, -1], [1, -1]⟩ : EncodedData).n_windows :=
  ⟨by decide,
    n_measurements_invariant 2 0 [[1, 1]] [1024, 1025, 1024, 1023] _ (by decide)⟩

/-- C9: for every successfully encoded signal, the `n_samples` field of the
emitted record equals the original signal length before windowing. -/
theorem n_samples_eq_signal_length (n q_bits : Nat) (Phi : List (List Int))
    (sig : List Int) (rec : EncodedData)
    (h : ecg_encoder n q_bits Phi sig = some rec) :
    rec.n_samples = sig.length := by
  obtain ⟨-, hmod, hs, -, -, -, -⟩ := ecg_encoder_some_spec n q_bits Phi sig rec h
  rw [hs, to_windows, List.length_map, vec_to_windows, length_chunks]
  exact Nat.mul_div_cancel' (Nat.dvd_of_mod_eq_zero hmod)

theorem n_samples_eq_signal_length_witness :
    ecg_encoder 2 0 [[1, 1]] [1024, 1025, 1024, 1023]
        = some ⟨4, 2, 2, 0, 1, [1, -1], [1, -1]⟩ ∧
    (⟨4, 2, 2, 0, 1, [1, -1], [1, -1]⟩ : EncodedData).n_samples
      = ([1024, 1025, 1024, 1023] : List Int).length :=
  ⟨by decide,
    n_samples_eq_signal_length 2 0 [[1, 1]] [1024, 1025, 1024, 1023] _ (by decide)⟩

/-- C6: for every successfully encoded signal, the `mean_val` and `std_val`
fields of the emitted record are the nearest-integer rounds of the mean and
the (population) standard deviation of the measurement stream after
quantization but before clipping. -/
theorem stats_on_quantized_preclip_stream (n q_bits : Nat) (Phi : List (List Int))
    (sig : List Int) (rec : EncodedData)
    (h : ecg_encoder n q_bits Phi sig = some rec) :
    rec.mean_val = streamMeanVal (quantizeStream q_bits (rawMeasurementStream n Phi sig)) ∧
    rec.std_val = streamStdVal (quantizeStream q_bits (rawMeasurementStream n Phi sig)) := by
  obtain ⟨-, -, -, -, -, hmean, hstd⟩ := ecg_encoder_some_spec n q_bits Phi sig rec h
  rw [rawMeasurementStream]
  exact ⟨hmean, hstd⟩

theorem stats_on_quantized_preclip_stream_witness :
    ecg_encoder 2 0 [[1, 1]] [1024, 1025, 1024, 1023]
        = some ⟨4, 2, 2, 0, 1, [1, -1], [1, -1]⟩ ∧
    ((⟨4, 2, 2, 0, 1, [1, -1], [1, -1]⟩ : EncodedData).mean_val
        = streamMeanVal (quantizeStream 0 (rawMeasurementStream 2 [[1, 1]] [1024, 1025, 1024, 1023])) ∧
     (⟨4, 2, 2, 0, 1, [1, -1], [1, -1]⟩ : EncodedData).std_val
        = streamStdVal (quantizeStream 0 (rawMeasurementStream 2 [[1, 1]] [1024, 1025, 1024, 1023]))) :=
  ⟨by decide,
    stats_on_quantized_preclip_stream 2 0 [[1, 1]] [1024, 1025, 1024, 1023] _ (by decide)⟩

/-- `roundHalfEvenDiv p L` really is a nearest-integer round of `p / L`: the
rounded value is within half a unit of the exact rational, i.e.
`2 * |p - round * L| ≤ L`. -/
lemma roundHalfEvenDiv_nearest (p : Int) (L : Nat) (hL : 0 < L) :
    2 * |p - roundHalfEvenDiv p L * L| ≤ L := by
  have hL2 : (0 : Int) < (L : Int) := by exact_mod_cast hL
  have hdm : (L : Int) * Int.ediv p L + Int.emod p L = p := Int.ediv_add_emod p L
  have hr0 : 0 ≤ Int.emod p L := Int.emod_nonneg p (ne_of_gt hL2)
  have hrL : Int.emod p L < L := Int.emod_lt_of_pos p hL2
  simp only [roundHalfEvenDiv]
  split
  · rename_i h1
    rw [show p - Int.ediv p L * L = Int.emod p L from by linarith,
      abs_of_nonneg hr0]
    linarith
  · split
    · rename_i h1 h2
      rw [show p - (Int.ediv p L + 1) * L = Int.emod p L - (L : Int) from by linarith,
        abs_of_nonpos (by linarith)]
      linarith
    · split
      · rename_i h1 h2 h3
        rw [show p - Int.ediv p L * L = Int.emod p L from by linarith,
          abs_of_nonneg hr0]
        linarith
      · rename_i h1 h2 h3
        rw [show p - (Int.ediv p L + 1) * L = Int.emod p L - (L : Int) from by linarith,
          abs_of_nonpos (by linarith)]
        linarith

lemma sqrtAux_le (n : Nat) : ∀ k, sqrtAux n k * sqrtAux n k ≤ n
  | 0 => Nat.zero_le n
  | k + 1 => by
      rw [sqrtAux]
      split
      · rename_i h
        exact h
      · exact sqrtAux_le n k

lemma lt_sqrtAux_succ (n : Nat) :
    ∀ k, n < (k + 1) * (k + 1) → n < (sqrtAux n k + 1) * (sqrtAux n k + 1)
  | 0, h => by
      rw [sqrtAux]
      exact h
  | k + 1, h => by
      rw [sqrtAux]
      split
      · exact h
      · rename_i hc
        exact lt_sqrtAux_succ n k (Nat.lt_of_not_le hc)

lemma isqrt_le (n : Nat) : isqrt n * isqrt n ≤ n := sqrtAux_le n n

lemma lt_isqrt_succ (n : Nat) : n < (isqrt n + 1) * (isqrt n + 1) :=
  lt_sqrtAux_succ n n (by nlinarith)

/-- `roundSqrtDiv N D` really is a nearest-integer round of the square root of
`N / D`: the exact value `N / D` lies between `(round - 1/2)^2` and
`(round + 1/2)^2` (the lower comparison stated only for a positive round, the
round being nonnegative by construction). -/
lemma roundSqrtDiv_nearest (N : Int) (D : Nat) (hN : 0 ≤ N) (hD : 0 < D) :
    4 * N ≤ (2 * roundSqrtDiv N D + 1) ^ 2 * D ∧
    (1 ≤ roundSqrtDiv N D → (2 * roundSqrtDiv N D - 1) ^ 2 * D ≤ 4 * N) := by
  have hD2 : (0 : Int) < (D : Int) := by exact_mod_cast hD
  have hq0 : 0 ≤ Int.ediv N D := Int.ediv_nonneg hN (le_of_lt hD2)
  simp only [roundSqrtDiv]
  set t : Nat := isqrt (Int.ediv N D).toNat with ht
  have h1 : (t : Int) * t ≤ Int.ediv N D := by
    have hs := isqrt_le (Int.ediv N D).toNat
    have h2 : ((t * t : Nat) : Int) ≤ ((Int.ediv N D).toNat : Int) := by exact_mod_cast hs
    push_cast at h2
    rwa [Int.toNat_of_nonneg hq0] at h2
  have h2 : Int.ediv N D < ((t : Int) + 1) * ((t : Int) + 1) := by
    have hs := lt_isqrt_succ (Int.ediv N D).toNat
    have h3 : ((Int.ediv N D).toNat : Int) < (((t + 1) * (t + 1) : Nat) : Int) := by
      exact_mod_cast hs
    push_cast at h3
    rwa [Int.toNat_of_nonneg hq0] at h3
  have hlow : (t : Int) * t * D ≤ N := (Int.le_ediv_iff_mul_le hD2).mp h1
  have hhigh : N < ((t : Int) + 1) * ((t : Int) + 1) * D := (Int.ediv_lt_iff_lt_mul hD2).mp h2
  have ht0 : (0 : Int) ≤ (t : Int) := Int.ofNat_nonneg t
  split
  · rename_i hc
    constructor
    · nlinarith [hc]
    · intro h1t
      nlinarith [hlow, h1t, hD2]
  · rename_i hc1
    push_neg at hc1
    split
    · rename_i hc2
      constructor
      · nlinarith [hhigh, hD2, ht0]
      · intro h1t
        nlinarith [hc2]
    · rename_i hc2
      push_neg at hc2
      have htie : (D : Int) * (2 * (t : Int) + 1) ^ 2 = 4 * N := le_antisymm hc1 hc2
      split
      · constructor
        · nlinarith [htie]
        · intro h1t
          nlinarith [htie, h1t, hD2]
      · constructor
        · nlinarith [htie, hD2, ht0]
        · intro h1t
          nlinarith [htie]
